import Mathlib

/-!
Verification development for the chain33 mempool base module
(`system/mempool/base.go`).

The Go source is shallowly embedded as pure Lean functions.  Machine
integers (`int64`, `int32`) are modelled as `Int`; Go's truncated
division/remainder are `Int.tdiv` / `Int.tmod`.  External collaborators
that the mempool only calls through the message queue (nonce oracle,
chain config, the txCache implementation, `types.Transaction` helpers)
are modelled as explicit parameters or, where noted, from the
specification, because their code is not part of this module.
-/

namespace Chain33Mempool

/-- Transaction model: exactly the fields of `types.Transaction` that
`system/mempool/base.go` reads.  `hash` stands for `tx.Hash()`,
`fromAddr` for `tx.From()`, `signTy` for `tx.GetSignature().GetTy()`,
`execer` for the byte slice `tx.GetExecer()`, `nonce` for
`tx.GetNonce()`, `groupCount` for `tx.GetGroupCount()` and
`isMinerAction` for the test `tx.ActionName() == types.MinerAction`. -/
structure Tx where
  hash : String
  fromAddr : String
  signTy : Nat
  execer : List Nat
  nonce : Int
  groupCount : Int
  isMinerAction : Bool
deriving DecidableEq

/-- `bytes.HasPrefix s pre` on byte slices. -/
def bytesHasPre : List Nat → List Nat → Bool
  | _, [] => true
  | [], _ :: _ => false
  | x :: xs, y :: ys => x == y && bytesHasPre xs ys

/-- External collaborators of the mempool, reached through the message
queue in the Go code.
* `isEthSignID` models `types.IsEthSignID` (signature-scheme test,
  defined in the `types` package).
* `paraKeyX` models the byte string `types.ParaKeyX` (parallel-chain
  execer namespace key).
* `nonceOracle` models the `EventGetEvmNonce` round trip in
  `getCurrentNonce`: `none` stands for a failed `Send`/`WaitTimeout`
  or a reply of the wrong dynamic type.
* `isExpired` models the `isExpired(cfg, item, height, blockTime)`
  helper of the mempool package (not part of `base.go`): Modelled from
  the spec: expiry of an item is judged against a reference
  height/time pair. -/
structure ChainEnv where
  isEthSignID : Nat → Bool
  paraKeyX : List Nat
  nonceOracle : String → Option Int
  isExpired : Tx → Int → Int → Bool

/-- `Mempool.getCurrentNonce` (base.go:233-247): queries the oracle and
returns `0` on any failure. -/
def getCurrentNonce (env : ChainEnv) (addr : String) : Int :=
  (env.nonceOracle addr).getD 0

/-- The selection test of `sortEthSignTyTx` (base.go:195): eth-signed
and the execer does not carry the parallel-chain key prefix. -/
def matchesEthSort (env : ChainEnv) (t : Tx) : Bool :=
  env.isEthSignID t.signTy && !(bytesHasPre t.execer env.paraKeyX)

/-- Stable insertion of one element into a nonce-ascending list:
an element is placed before the first strictly larger-or-equal nonce,
i.e. after all strictly smaller ones. -/
def insertNonce (t : Tx) : List Tx → List Tx
  | [] => [t]
  | u :: us => if u.nonce < t.nonce then u :: insertNonce t us else t :: u :: us

/-- `sort.SliceStable(etxs, nonce ascending)` (base.go:210-212):
stable insertion sort, ascending by nonce. -/
def sortByNonce : List Tx → List Tx
  | [] => []
  | t :: ts => insertNonce t (sortByNonce ts)

/-- The inner loop of `sortEthSignTyTx` (base.go:216-226): starting
after an emitted transaction with nonce `prev`, keep emitting while
each next sorted transaction has nonce exactly `prev + 1`; the first
gap stops the scan (`break`). -/
def consecRun (prev : Int) : List Tx → List Tx
  | [] => []
  | t :: ts => if t.nonce = prev + 1 then t :: consecRun t.nonce ts else []

/-- The keys of the Go map `ethsignTxs` in `sortEthSignTyTx`
(base.go:192-197), listed in first-occurrence order.  Go map iteration
order is unspecified; first-occurrence order is one admissible order,
and every property proved below about per-sender output is independent
of the order in which distinct senders are visited. -/
def firstKeys : List Tx → List String
  | [] => []
  | t :: ts => t.fromAddr :: (firstKeys ts).filter fun f => f ≠ t.fromAddr

/-- Per-sender emission of `sortEthSignTyTx` (base.go:213-227): sort
the sender's group; if the first (smallest) sorted nonce equals the
oracle's current nonce for that sender, emit it followed by the
strictly-consecutive continuation; otherwise emit nothing. -/
def emitForSender (env : ChainEnv) (sender : String) (group : List Tx) : List Tx :=
  match sortByNonce group with
  | [] => []
  | h :: t => if getCurrentNonce env sender = h.nonce then h :: consecRun h.nonce t else []

/-- Concatenation of the per-sender emissions over a list of sender
keys, each sender's group being its transactions (in arrival order)
inside `ethTxs`. -/
def senderBlocks (env : ChainEnv) (ethTxs : List Tx) : List String → List Tx
  | [] => []
  | f :: fs =>
      emitForSender env f (ethTxs.filter fun t => t.fromAddr = f) ++
        senderBlocks env ethTxs fs

/-- `Mempool.sortEthSignTyTx` (base.go:189-231).  One pass splits the
input into non-matching transactions (`merge`, kept in order) and the
eth-signed non-parallel groups; if no transaction matched, the input is
returned unchanged; otherwise the per-sender nonce runs are appended
after `merge`. -/
def sortEthSignTyTx (env : ChainEnv) (txs : List Tx) : List Tx :=
  let merge := txs.filter fun t => !(matchesEthSort env t)
  let ethTxs := txs.filter fun t => matchesEthSort env t
  if merge.length = txs.length then txs
  else merge ++ senderBlocks env ethTxs (firstKeys ethTxs)

/-- Specification-side emission (used to state the amended claim C1):
the maximal strictly-consecutive prefix of a sorted transaction list
whose nonces are exactly `e, e+1, e+2, …`. -/
def consecFrom (e : Int) : List Tx → List Tx
  | [] => []
  | t :: ts => if t.nonce = e then t :: consecFrom (e + 1) ts else []

/-- The mempool configuration `types.Mempool` — the seven fields named
by the specification (§3 Config) plus `maxTxFee`, which `delBlock`
reads. -/
structure MempoolCfg where
  maxTxNumPerAccount : Int
  maxTxLast : Int
  poolCacheSize : Int
  minTxFeeRate : Int
  maxTxFeeRate : Int
  maxTxFee : Int
  isLevelFee : Bool
  forceAccept : Bool
deriving DecidableEq

/-- The configuration rewriting performed by `NewMempool`
(base.go:65-86).  The three package-level default constants
`maxTxNumPerAccount`, `maxTxLast`, `poolCacheSize` live in the mempool
package outside `base.go`; they are taken here as parameters
`dAccount`, `dLast`, `dCache`.  `NewMempool` substitutes a default
exactly for the three fields it tests for zero and touches no other
field. -/
def newMempoolCfg (dAccount dLast dCache : Int) (cfg : MempoolCfg) : MempoolCfg :=
  { cfg with
    maxTxNumPerAccount :=
      if cfg.maxTxNumPerAccount = 0 then dAccount else cfg.maxTxNumPerAccount
    maxTxLast := if cfg.maxTxLast = 0 then dLast else cfg.maxTxLast
    poolCacheSize := if cfg.poolCacheSize = 0 then dCache else cfg.poolCacheSize }

/-- State of the orchestrator as read by `getTxList`/`filterTxList`
(base.go:145-185).
* `items` is the txCache content in `Walk(0, ·)` visiting order.  The
  txCache implementation is not part of `base.go`; Modelled from the
  spec (§4.1): `Walk` is a stable in-order traversal with an
  early-stop visitor.
* `headerHeight`/`headerBlockTime` are the header snapshot.
* `forkEthSort` models `cfg.IsFork(height, "ForkCheckEthTxSort")`. -/
structure MemState where
  items : List Tx
  headerHeight : Int
  headerBlockTime : Int
  forkEthSort : Bool

/-- The visitor loop of `filterTxList` (base.go:163-178), walking the
cache in order: skip duplicates (the `len(dupMap) > 0` guard in the Go
code is equivalent to plain membership, since membership in an empty
set is false), skip expired items unless `isAll`, append the item and
stop as soon as `count > 0` items have been collected (`n` is the
number already collected). -/
def collectTxs (env : ChainEnv) (height blockTime : Int) (dup : List String)
    (isAll : Bool) (count : Int) : List Tx → Nat → List Tx
  | [], _ => []
  | t :: ts, n =>
    if dup.contains t.hash then collectTxs env height blockTime dup isAll count ts n
    else if env.isExpired t height blockTime && !isAll then
      collectTxs env height blockTime dup isAll count ts n
    else if count > 0 ∧ ((n : Int) + 1 = count) then [t]
    else t :: collectTxs env height blockTime dup isAll count ts (n + 1)

/-- `Mempool.filterTxList` (base.go:156-185): walk with the next block
height `header.Height + 1` and the header block time, then, when the
`ForkCheckEthTxSort` gate is active, post-process the collected list
with the nonce sequencer. -/
def filterTxList (env : ChainEnv) (s : MemState) (count : Int) (dup : List String)
    (isAll : Bool) : List Tx :=
  let txs := collectTxs env (s.headerHeight + 1) s.headerBlockTime dup isAll count s.items 0
  if s.forkEthSort then sortEthSignTyTx env txs else txs

/-- The filter request `types.TxHashList` as read by `getTxList`. -/
structure TxHashList where
  count : Int
  hashes : List String

/-- `Mempool.getTxList` (base.go:145-154): build the dedup set from the
request hashes and delegate to `filterTxList` with `isAll = false`. -/
def getTxList (env : ChainEnv) (s : MemState) (filterList : TxHashList) : List Tx :=
  filterTxList env s filterList.count filterList.hashes false

/-- Specification-side count (claim C2): the resident items that are
neither in the dedup set nor expired against the reference point used
by `filterTxList`. -/
def eligibleList (env : ChainEnv) (s : MemState) (dup : List String) : List Tx :=
  s.items.filter fun t =>
    !(dup.contains t.hash) && !(env.isExpired t (s.headerHeight + 1) s.headerBlockTime)

/-- Go `int64` truncated division (`/`). -/
def goDiv (a b : Int) : Int := Int.tdiv a b

/-- Go `int64` truncated remainder (`%`). -/
def goMod (a b : Int) : Int := Int.tmod a b

/-- State read by the fee-rate functions (base.go:401-456).
* `qcacheProperFee`: `none` models `cache.qcache == nil`
  (base.go:402); otherwise the value of `qcache.GetProperFee()`.
  The queue cache is not part of `base.go`; Modelled from the spec
  (§4.1): `GetProperFee` yields a fee-rate threshold.
* `cacheBytes` models `GetTotalCacheBytes()` (`qcache.GetCacheBytes()`).
* `memSize` models `Size()` (`cache.Size()`).
* `maxTxNumber` models `cfg.GetP(Height()).MaxTxNumber`.
* `maxBlockSize` models the constant `types.MaxBlockSize`. -/
structure FeeState where
  cfg : MempoolCfg
  qcacheProperFee : Option Int
  cacheBytes : Int
  memSize : Int
  maxTxNumber : Int
  maxBlockSize : Int

/-- The rounding step of `getCacheFeeRate` (base.go:408-411): round a
fee rate up to the next multiple of `unitFee` when `unitFee ≠ 0` and
the Go remainder is positive. -/
def roundUpUnit (feeRate unitFee : Int) : Int :=
  if unitFee ≠ 0 ∧ goMod feeRate unitFee > 0 then (goDiv feeRate unitFee + 1) * unitFee
  else feeRate

/-- `Mempool.getCacheFeeRate` (base.go:401-416): `0` when there is no
queue cache; otherwise the proper fee rounded up to the
`MinTxFeeRate` unit and capped at `MaxTxFeeRate`. -/
def getCacheFeeRate (s : FeeState) : Int :=
  match s.qcacheProperFee with
  | none => 0
  | some fee =>
    let feeRate := roundUpUnit fee s.cfg.minTxFeeRate
    if feeRate > s.cfg.maxTxFeeRate then s.cfg.maxTxFeeRate else feeRate

/-- `Mempool.getLevelFeeRate` (base.go:437-456): pick the tier from the
byte and count occupancy (current plus anticipated) and cap the result
at `MaxTxFeeRate`.  Go's `types.MaxBlockSize/20` etc. are integer
divisions. -/
def getLevelFeeRate (s : FeeState) (baseFeeRate appendCount appendSize : Int) : Int :=
  let sumByte := s.cacheBytes + appendSize
  let feeRate :=
    if sumByte ≥ goDiv s.maxBlockSize 20 ∨ s.memSize + appendCount ≥ goDiv s.maxTxNumber 2 then
      100 * baseFeeRate
    else if sumByte ≥ goDiv s.maxBlockSize 100 ∨ s.memSize + appendCount ≥ goDiv s.maxTxNumber 10 then
      10 * baseFeeRate
    else baseFeeRate
  if feeRate > s.cfg.maxTxFeeRate then s.cfg.maxTxFeeRate else feeRate

/-- The request `types.ReqProperFee` (`TxCount`, `TxSize`, both
`int32`). -/
structure ReqProperFee where
  txCount : Int
  txSize : Int
deriving DecidableEq

/-- The body of `GetProperFeeRate` after the request rewriting
(base.go:426-433): the cache rate, raised to the level rate when
`IsLevelFee` is on and the level rate is larger. -/
def properFeeCore (s : FeeState) (req : ReqProperFee) : Int :=
  let feeRate := getCacheFeeRate s
  if s.cfg.isLevelFee then
    let levelFeeRate := getLevelFeeRate s s.cfg.minTxFeeRate req.txCount req.txSize
    if levelFeeRate > feeRate then levelFeeRate else feeRate
  else feeRate

/-- `Mempool.GetProperFeeRate` (base.go:419-434).  The input is the
caller's request pointer (`none` = `nil`).  The returned pair is the
fee rate together with the caller-visible request object after the
call, which models the Go pointer semantics at base.go:420-425:
* `req == nil` or `req.TxCount == 0`: the local variable `req` is
  rebound to a fresh object `{TxCount: 20}` (whose zero `TxSize` is
  then defaulted to `10240`), so the caller's object is not written;
* otherwise, if `req.TxSize == 0`, the default size is written into
  the caller's object in place. -/
def GetProperFeeRate (s : FeeState) (req0 : Option ReqProperFee) : Int × Option ReqProperFee :=
  match req0 with
  | none => (properFeeCore s ⟨20, 10240⟩, none)
  | some q =>
    if q.txCount = 0 then (properFeeCore s ⟨20, 10240⟩, some q)
    else if q.txSize = 0 then
      (properFeeCore s ⟨q.txCount, 10240⟩, some ⟨q.txCount, 10240⟩)
    else (properFeeCore s q, some q)

/-- Specification-side level multiplier (claim C4): 100 when the first
threshold pair is reached, else 10 when the second is, else 1. -/
def levelMult (s : FeeState) (appendCount appendSize : Int) : Int :=
  if s.cacheBytes + appendSize ≥ goDiv s.maxBlockSize 20 ∨
      s.memSize + appendCount ≥ goDiv s.maxTxNumber 2 then 100
  else if s.cacheBytes + appendSize ≥ goDiv s.maxBlockSize 100 ∨
      s.memSize + appendCount ≥ goDiv s.maxTxNumber 10 then 10
  else 1

/-- Specification-side fee rate (claim C3, written from the claim's
words): substitute the per-field defaults (`TxCount = 20`,
`TxSize = 10240`) for unset fields, take the greater of the cache-fill
rate (rounded up to the `MinTxFeeRate` unit and clamped) and — when
tiered fees are on — the level rate (clamped). -/
def feeRateClaim (s : FeeState) (q : ReqProperFee) : Int :=
  let count := if q.txCount = 0 then 20 else q.txCount
  let size := if q.txSize = 0 then 10240 else q.txSize
  let cache := min s.cfg.maxTxFeeRate (roundUpUnit (s.qcacheProperFee.getD 0) s.cfg.minTxFeeRate)
  if s.cfg.isLevelFee then
    max cache (min s.cfg.maxTxFeeRate (levelMult s count size * s.cfg.minTxFeeRate))
  else cache

/-- Parameters of `delBlock` (base.go:459-490) that live outside
`base.go`:
* `check t` models `tx.Check(cfg, height, MinTxFeeRate, MaxTxFee)`
  (structural and fee validation in the `types` package);
* `expireValid t` models `mem.checkExpireValid(tx)` (expiry
  validation, in the mempool package outside `base.go`); Modelled from
  the spec (§4.2): each candidate is revalidated before `Push`;
* `pushOk t` models whether `mem.PushTx(tx)` succeeded (a failure is
  only logged);
* `groupTx l` models `types.Transactions{Txs: l}.Tx()`, the
  reassembly of a contiguous group into one logical transaction. -/
structure DelBlockEnv where
  check : Tx → Bool
  expireValid : Tx → Bool
  pushOk : Tx → Bool
  groupTx : List Tx → Tx

/-- The scan of `delBlock`'s loop (base.go:466-489) over the remaining
suffix of the block, once position 0 has been handled.  `first` tells
whether the head of `txs` is still position 0 of the block (the miner
skip applies only there).  A transaction declaring `groupCount > 1`
that fits in the remainder is replaced by the reassembled group
transaction and the scan advances past the whole group
(`i = i + groupCount - 1` plus the loop increment); every surviving
candidate is validated and, when valid, pushed — push failures are
logged only, and in all cases the scan continues.  The returned list
holds the candidates that were re-admitted (validated and pushed
successfully). -/
def delBlockLoop (e : DelBlockEnv) (first : Bool) : List Tx → List Tx
  | [] => []
  | t :: rest =>
    if first ∧ t.isMinerAction then delBlockLoop e false rest
    else if _h : 1 < t.groupCount ∧ t.groupCount ≤ (((t :: rest).length : Nat) : Int) then
      let cand := e.groupTx ((t :: rest).take t.groupCount.toNat)
      if e.check cand ∧ e.expireValid cand then
        (if e.pushOk cand then [cand] else []) ++
          delBlockLoop e false ((t :: rest).drop t.groupCount.toNat)
      else delBlockLoop e false ((t :: rest).drop t.groupCount.toNat)
    else
      if e.check t ∧ e.expireValid t then
        (if e.pushOk t then [t] else []) ++ delBlockLoop e false rest
      else delBlockLoop e false rest
termination_by l => l.length
decreasing_by
  all_goals simp only [List.length_drop, List.length_cons]
  all_goals omega

/-- `Mempool.delBlock` (base.go:459-490): nothing to do on an empty
block, otherwise run the loop from position 0. -/
def delBlock (e : DelBlockEnv) (blockTxs : List Tx) : List Tx :=
  if blockTxs.length ≤ 0 then [] else delBlockLoop e true blockTxs

/-- Specification-side scan (claim C6): the candidate list obtained by
collapsing each well-formed group (declared size `g > 1`, fitting in
the remaining transactions) into one reassembled transaction and
advancing past it, leaving other transactions as they are. -/
def scanCandidates (groupTx : List Tx → Tx) : List Tx → List Tx
  | [] => []
  | t :: rest =>
    if _h : 1 < t.groupCount ∧ t.groupCount ≤ (((t :: rest).length : Nat) : Int) then
      groupTx ((t :: rest).take t.groupCount.toNat) ::
        scanCandidates groupTx ((t :: rest).drop t.groupCount.toNat)
    else t :: scanCandidates groupTx rest
termination_by l => l.length
decreasing_by
  all_goals simp only [List.length_drop, List.length_cons]
  all_goals omega

/-- Specification-side miner skip (claim C6): drop position 0 exactly
when it carries a miner-tagged action. -/
def stripMinerHead : List Tx → List Tx
  | [] => []
  | t :: rest => if t.isMinerAction then rest else t :: rest

/-- One poll iteration's outcome in `checkSync`'s loop
(base.go:536-565), as seen through the message queue:
`sendErr` = `client.Send` failed, `waitErr` = `client.Wait` failed,
`caught b` = a `types.IsCaughtUp` reply with `Iscaughtup == b`. -/
inductive PollResp where
  | sendErr
  | waitErr
  | caught (b : Bool)
deriving DecidableEq

/-- The polling loop of `checkSync` (base.go:536-565) evaluated along a
finite trace of responses (the end of the trace models shutdown via
`isClose`).  Returns the final sync flag and the number of poll
iterations performed.  Only a `caught true` reply sets the flag and
terminates the loop; every other outcome sleeps and polls again. -/
def checkSyncLoop (syncFlag : Bool) : List PollResp → Bool × Nat
  | [] => (syncFlag, 0)
  | r :: rs =>
    match r with
    | .caught true => (true, 1)
    | _ =>
      let (s, n) := checkSyncLoop syncFlag rs
      (s, n + 1)

/-- `Mempool.checkSync` (base.go:524-566): return at once if already
synced; otherwise set the sync flag when `ForceAccept` is configured
— and then, in every case, enter the polling loop. -/
def checkSyncRun (initSync forceAccept : Bool) (resps : List PollResp) : Bool × Nat :=
  if initSync then (initSync, 0)
  else checkSyncLoop forceAccept resps

/-- Result of one `SendTx` call as distinguished by
`pushDelayTxRoutine` (base.go:601-612): success, the distinguishable
pool-full error `types.ErrMemFull`, or any other error. -/
inductive SendRes where
  | ok
  | memFull
  | otherErr
deriving DecidableEq

/-- State of `pushDelayTxRoutine` (base.go:598-637): the retry buffer
and the number of `SendTx` calls made so far (the latter indexes the
response oracle, so that repeated submissions of one transaction may
receive different answers). -/
structure DelayState where
  retryList : List Tx
  calls : Nat
deriving DecidableEq

/-- `push2Mempool` (base.go:601-612): submit the transaction; exactly
a `types.ErrMemFull` failure appends it to the retry buffer (success
and all other errors are only logged). -/
def push2Mempool (send : Nat → Tx → SendRes) (st : DelayState) (t : Tx) : DelayState :=
  let res := send st.calls t
  { retryList := if res = SendRes.memFull then st.retryList ++ [t] else st.retryList
    calls := st.calls + 1 }

/-- The two kinds of wake-ups of `pushDelayTxRoutine`'s select loop
(base.go:615-636) other than shutdown: a batch arriving on
`delayTxListChan`, or the one-second ticker. -/
inductive DelayEvent where
  | delayBatch (txs : List Tx)
  | tick

/-- One iteration of `pushDelayTxRoutine`'s select loop
(base.go:615-636): a delayed batch is submitted transaction by
transaction; a tick with an empty buffer does nothing (`break`),
otherwise the buffer is swapped out and cleared before the retry pass
and every swapped-out transaction is resubmitted once. -/
def delayStep (send : Nat → Tx → SendRes) (st : DelayState) : DelayEvent → DelayState
  | .delayBatch txs => txs.foldl (push2Mempool send) st
  | .tick =>
    if st.retryList = [] then st
    else
      let sendList := st.retryList
      sendList.foldl (push2Mempool send) { st with retryList := [] }

/-- Specification-side buffer content (claim C8): of the transactions
submitted starting at call index `c`, those whose submission came back
`memFull`, in submission order. -/
def memFullOnes (send : Nat → Tx → SendRes) (c : Nat) : List Tx → List Tx
  | [] => []
  | t :: ts =>
    (if send c t = SendRes.memFull then [t] else []) ++ memFullOnes send (c + 1) ts

/-- The txCache as far as `removeTxs` (base.go:257-265) observes it.
The implementation is not part of `base.go`; Modelled from the spec
(§3, §4.1): at most one resident item per hash, `Exist` is hash
membership, `Remove` deletes the hash's item from all indices and is
idempotent. -/
structure TxCache where
  items : List Tx
deriving DecidableEq

/-- `cache.Exist(hash)` — Modelled from the spec (§4.1). -/
def TxCache.existHash (c : TxCache) (h : String) : Bool :=
  c.items.any fun t => t.hash = h

/-- `cache.Remove(hash)` — Modelled from the spec (§4.1): drop every
resident item carrying the hash. -/
def TxCache.removeHash (c : TxCache) (h : String) : TxCache :=
  ⟨c.items.filter fun t => t.hash ≠ h⟩

/-- `Mempool.removeTxs` (base.go:257-265): for each hash, remove it
when resident. -/
def removeTxs (c : TxCache) (hashes : List String) : TxCache :=
  hashes.foldl (fun acc h => if acc.existHash h then acc.removeHash h else acc) c

/-- `Mempool.RemoveTxs` (base.go:250-255): delegate under the lock and
return `nil` unconditionally.  The second component is the returned
error (`none` = `nil`). -/
def RemoveTxs (c : TxCache) (hashList : TxHashList) : TxCache × Option Unit :=
  (removeTxs c hashList.hashes, none)

/-- The request object that `GetProperFeeRate` effectively computes
with, before `feeRateClaim`'s own per-field defaulting: a `nil` or
zero-count request behaves like the all-unset request. -/
def defaultedReq : Option ReqProperFee → ReqProperFee
  | none => ⟨0, 0⟩
  | some q => if q.txCount = 0 then ⟨0, 0⟩ else q

/-! ### Concrete instances used by counterexamples and witnesses -/

/-- A sender address. -/
def addrA : String := "A"

/-- Concrete environment: signature type 1 is the eth scheme, the
parallel-chain key is the byte string `[9, 9]`, the oracle answers
nonce 5 for sender `A` and fails for everyone else, nothing is
expired. -/
def cexEnv : ChainEnv :=
  { isEthSignID := fun ty => ty == 1
    paraKeyX := [9, 9]
    nonceOracle := fun a => if a = addrA then some 5 else none
    isExpired := fun _ _ _ => false }

def hash4 : String := "h4"

def hash5 : String := "h5"

def hash6 : String := "h6"

/-- Eth-signed transaction of sender `A` with nonce 4. -/
def cexT4 : Tx :=
  { hash := hash4, fromAddr := addrA, signTy := 1, execer := [1]
    nonce := 4, groupCount := 0, isMinerAction := false }

/-- Eth-signed transaction of sender `A` with nonce 5. -/
def cexT5 : Tx :=
  { hash := hash5, fromAddr := addrA, signTy := 1, execer := [1]
    nonce := 5, groupCount := 0, isMinerAction := false }

/-- Eth-signed transaction of sender `A` with nonce 6. -/
def cexT6 : Tx :=
  { hash := hash6, fromAddr := addrA, signTy := 1, execer := [1]
    nonce := 6, groupCount := 0, isMinerAction := false }

/-- State for the C2 counterexample: one resident, unexpired,
eth-signed transaction with nonce 6 (expected nonce is 5), and the
`ForkCheckEthTxSort` gate active. -/
def c2St : MemState :=
  { items := [cexT6], headerHeight := 0, headerBlockTime := 0, forkEthSort := true }

/-- State for the C2 witness: three resident transactions, fork gate
inactive. -/
def c2wSt : MemState :=
  { items := [cexT4, cexT5, cexT6], headerHeight := 0, headerBlockTime := 0
    forkEthSort := false }

/-- Configuration for the fee-rate counterexamples: unit fee 1, cap
10000, tiered fees on. -/
def cexCfg : MempoolCfg :=
  { maxTxNumPerAccount := 0, maxTxLast := 0, poolCacheSize := 0
    minTxFeeRate := 1, maxTxFeeRate := 10000, maxTxFee := 0
    isLevelFee := true, forceAccept := false }

/-- Fee state for the fee-rate counterexamples: empty cache, proper
fee 0, `types.MaxBlockSize = 204800`, max tx number 1000.  With the
default anticipated size 10240, `cacheBytes + 10240 ≥ 204800/20`
reaches the ×100 tier, while an anticipated size of 999 stays in the
×1 tier. -/
def cexFee : FeeState :=
  { cfg := cexCfg, qcacheProperFee := some 0, cacheBytes := 0, memSize := 0
    maxTxNumber := 1000, maxBlockSize := 204800 }

/-- The all-zero configuration. -/
def cfgZero : MempoolCfg :=
  { maxTxNumPerAccount := 0, maxTxLast := 0, poolCacheSize := 0
    minTxFeeRate := 0, maxTxFeeRate := 0, maxTxFee := 0
    isLevelFee := false, forceAccept := false }

/-- A poll trace: not caught up on the first poll, caught up on the
second. -/
def cexPolls : List PollResp := [PollResp.caught false, PollResp.caught true]

/-- A one-item cache for the C9 witness. -/
def c9Cache : TxCache := ⟨[cexT4]⟩

/-! ### Helper lemmas -/

theorem checkSyncLoop_polls_const (a b : Bool) (resps : List PollResp) :
    (checkSyncLoop a resps).2 = (checkSyncLoop b resps).2 := by
  induction resps with
  | nil => rfl
  | cons r rs ih =>
    cases r with
    | caught bb => cases bb <;> simp [checkSyncLoop, ih]
    | sendErr => simp [checkSyncLoop, ih]
    | waitErr => simp [checkSyncLoop, ih]

theorem checkSyncLoop_flag_true (resps : List PollResp) :
    (checkSyncLoop true resps).1 = true := by
  induction resps with
  | nil => rfl
  | cons r rs ih =>
    cases r with
    | caught bb => cases bb <;> simp [checkSyncLoop, ih]
    | sendErr => simp [checkSyncLoop, ih]
    | waitErr => simp [checkSyncLoop, ih]

theorem foldl_push2Mempool (send : Nat → Tx → SendRes) (txs : List Tx) :
    ∀ st : DelayState,
      txs.foldl (push2Mempool send) st =
        ⟨st.retryList ++ memFullOnes send st.calls txs, st.calls + txs.length⟩ := by
  induction txs with
  | nil => intro st; simp [memFullOnes]
  | cons t ts ih =>
    intro st
    rw [List.foldl_cons, ih]
    cases h : send st.calls t <;>
      simp [push2Mempool, h, memFullOnes, DelayState.mk.injEq, List.append_assoc] <;>
      omega

theorem removeStep_items (c : TxCache) (h : String) :
    (if c.existHash h then c.removeHash h else c).items =
      c.items.filter fun t => t.hash ≠ h := by
  by_cases he : c.existHash h
  · simp [he, TxCache.removeHash]
  · have hall : ∀ x ∈ c.items, ¬ x.hash = h := by
      simpa [TxCache.existHash, List.any_eq_false] using he
    rw [if_neg (by simp [he])]
    symm
    rw [List.filter_eq_self]
    intro t ht
    simp [hall t ht]

theorem removeTxs_eq (hashes : List String) :
    ∀ c : TxCache, removeTxs c hashes = ⟨c.items.filter fun t => ¬ t.hash ∈ hashes⟩ := by
  induction hashes with
  | nil => intro c; simp [removeTxs]
  | cons h hs ih =>
    intro c
    show removeTxs (if c.existHash h then c.removeHash h else c) hs = _
    rw [ih, removeStep_items, List.filter_filter]
    refine congrArg TxCache.mk (List.filter_congr ?_)
    intro t _
    by_cases h1 : t.hash = h <;> by_cases h2 : t.hash ∈ hs <;> simp [h1, h2]

theorem getLevelFeeRate_eq (s : FeeState) (base count size : Int) :
    getLevelFeeRate s base count size =
      min s.cfg.maxTxFeeRate (levelMult s count size * base) := by
  simp only [getLevelFeeRate, levelMult]
  split_ifs <;> omega

theorem roundUpUnit_nonneg {fee unit : Int} (hf : 0 ≤ fee) (hu : 0 ≤ unit) :
    0 ≤ roundUpUnit fee unit := by
  unfold roundUpUnit goDiv
  split_ifs with h
  · exact mul_nonneg (by have := Int.tdiv_nonneg hf hu; omega) hu
  · exact hf

theorem getCacheFeeRate_eq (s : FeeState) (hM : 0 ≤ s.cfg.maxTxFeeRate) :
    getCacheFeeRate s =
      min s.cfg.maxTxFeeRate
        (roundUpUnit (s.qcacheProperFee.getD 0) s.cfg.minTxFeeRate) := by
  cases hq : s.qcacheProperFee with
  | none =>
    simp only [getCacheFeeRate, hq, Option.getD_none, roundUpUnit, goMod, Int.zero_tmod]
    rw [if_neg (by omega)]
    omega
  | some fee =>
    simp only [getCacheFeeRate, hq, Option.getD_some]
    omega

theorem getCacheFeeRate_bounds (s : FeeState) (hM : 0 ≤ s.cfg.maxTxFeeRate)
    (hu : 0 ≤ s.cfg.minTxFeeRate) (hp : 0 ≤ s.qcacheProperFee.getD 0) :
    0 ≤ getCacheFeeRate s ∧ getCacheFeeRate s ≤ s.cfg.maxTxFeeRate := by
  rw [getCacheFeeRate_eq s hM]
  have := roundUpUnit_nonneg hp hu
  omega

theorem getLevelFeeRate_bounds (s : FeeState) (count size : Int)
    (hM : 0 ≤ s.cfg.maxTxFeeRate) (hu : 0 ≤ s.cfg.minTxFeeRate) :
    0 ≤ getLevelFeeRate s s.cfg.minTxFeeRate count size ∧
      getLevelFeeRate s s.cfg.minTxFeeRate count size ≤ s.cfg.maxTxFeeRate := by
  rw [getLevelFeeRate_eq]
  have : 0 ≤ levelMult s count size * s.cfg.minTxFeeRate := by
    unfold levelMult
    split_ifs <;> omega
  omega

theorem properFeeCore_bounds (s : FeeState) (r : ReqProperFee)
    (hM : 0 ≤ s.cfg.maxTxFeeRate) (hu : 0 ≤ s.cfg.minTxFeeRate)
    (hp : 0 ≤ s.qcacheProperFee.getD 0) :
    0 ≤ properFeeCore s r ∧ properFeeCore s r ≤ s.cfg.maxTxFeeRate := by
  have hc := getCacheFeeRate_bounds s hM hu hp
  have hl := getLevelFeeRate_bounds s r.txCount r.txSize hM hu
  simp only [properFeeCore]
  split_ifs <;> omega

theorem claim_eq_core (s : FeeState) (q : ReqProperFee) (hM : 0 ≤ s.cfg.maxTxFeeRate) :
    feeRateClaim s q =
      properFeeCore s
        ⟨(if q.txCount = 0 then 20 else q.txCount),
          (if q.txSize = 0 then 10240 else q.txSize)⟩ := by
  simp only [feeRateClaim, properFeeCore]
  rw [← getCacheFeeRate_eq s hM, ← getLevelFeeRate_eq]
  split_ifs <;> omega

/-! ### Claim theorems -/

/-- C5, counterexample: the pool constructor leaves a zero
`MinTxFeeRate` (and `MaxTxFeeRate`) at zero — no default is
substituted for them, whatever the package defaults are — refuting
"each of the seven configuration fields … that is zero-valued is
replaced by its default before use". -/
theorem c5_counterexample :
    (newMempoolCfg 100 200 300 cfgZero).minTxFeeRate = 0 ∧
      (newMempoolCfg 7 8 9 cfgZero).minTxFeeRate = 0 ∧
      (newMempoolCfg 100 200 300 cfgZero).maxTxFeeRate = 0 :=
  ⟨rfl, rfl, rfl⟩

/-- C5 (amended): the pool constructor replaces exactly the three
zero-valued fields `MaxTxNumPerAccount`, `MaxTxLast`, `PoolCacheSize`
by the package defaults, and leaves `MinTxFeeRate`, `MaxTxFeeRate`,
`IsLevelFee` and `ForceAccept` untouched. -/
theorem c5_config_defaults (dAccount dLast dCache : Int) (cfg : MempoolCfg) :
    (newMempoolCfg dAccount dLast dCache cfg).maxTxNumPerAccount =
        (if cfg.maxTxNumPerAccount = 0 then dAccount else cfg.maxTxNumPerAccount) ∧
      (newMempoolCfg dAccount dLast dCache cfg).maxTxLast =
        (if cfg.maxTxLast = 0 then dLast else cfg.maxTxLast) ∧
      (newMempoolCfg dAccount dLast dCache cfg).poolCacheSize =
        (if cfg.poolCacheSize = 0 then dCache else cfg.poolCacheSize) ∧
      (newMempoolCfg dAccount dLast dCache cfg).minTxFeeRate = cfg.minTxFeeRate ∧
      (newMempoolCfg dAccount dLast dCache cfg).maxTxFeeRate = cfg.maxTxFeeRate ∧
      (newMempoolCfg dAccount dLast dCache cfg).isLevelFee = cfg.isLevelFee ∧
      (newMempoolCfg dAccount dLast dCache cfg).forceAccept = cfg.forceAccept :=
  ⟨rfl, rfl, rfl, rfl, rfl, rfl, rfl⟩

/-- C7, counterexample: with `ForceAccept` set and the chain reporting
"not caught up" then "caught up", the sync task performs two polls of
the chain's catch-up status — refuting "the sync-poller task
terminates immediately, without polling the chain's catch-up
status". -/
theorem c7_counterexample :
    checkSyncRun false true cexPolls = (true, 2) ∧
      (checkSyncRun false true cexPolls).2 ≠ 0 :=
  ⟨by decide, by decide⟩

/-- C7 (amended): with `ForceAccept` set, `checkSync` marks the pool
synced immediately (the flag is true whatever the later poll responses
are), but the poller does not terminate early: it performs exactly the
same polls of the chain's catch-up status as without `ForceAccept`. -/
theorem c7_force_accept (resps : List PollResp) :
    (checkSyncRun false true resps).1 = true ∧
      (checkSyncRun false true resps).2 = (checkSyncRun false false resps).2 := by
  refine ⟨?_, ?_⟩
  · simpa [checkSyncRun] using checkSyncLoop_flag_true resps
  · simpa [checkSyncRun] using checkSyncLoop_polls_const true false resps

/-- C8: in the Delayed-Tx Resubmitter, after a delayed batch the retry
buffer has grown by exactly the transactions whose submission failed
with the pool-full error (each submitted exactly once, in order), and
a one-second tick replaces the whole buffer by the transactions of the
old buffer that failed with pool-full during the retry pass — every
buffered transaction is retried exactly once within the tick, and
repeated pool-full failures wait for the next tick. -/
theorem c8_delay_retry (send : Nat → Tx → SendRes) (st : DelayState) (txs : List Tx) :
    delayStep send st (DelayEvent.delayBatch txs) =
        ⟨st.retryList ++ memFullOnes send st.calls txs, st.calls + txs.length⟩ ∧
      delayStep send st DelayEvent.tick =
        ⟨memFullOnes send st.calls st.retryList, st.calls + st.retryList.length⟩ := by
  constructor
  · exact foldl_push2Mempool send txs st
  · obtain ⟨r, cnum⟩ := st
    by_cases h : r = []
    · subst h
      simp [delayStep, memFullOnes]
    · simp only [delayStep, h, if_neg]
      rw [foldl_push2Mempool]
      simp

/-- C9: `RemoveTxs` is idempotent per hash list, removing a
non-resident hash is a no-op, and the returned error is always `nil`.
The txCache itself is modelled from the spec (§4.1), since its
implementation is outside `base.go`. -/
theorem c9_remove_txs (c : TxCache) (hl : TxHashList) :
    removeTxs (removeTxs c hl.hashes) hl.hashes = removeTxs c hl.hashes ∧
      (RemoveTxs c hl).2 = none ∧
      ∀ h : String, c.existHash h = false → removeTxs c [h] = c := by
  refine ⟨?_, rfl, ?_⟩
  · rw [removeTxs_eq, removeTxs_eq]
    refine congrArg TxCache.mk ?_
    show (c.items.filter fun t => ¬ t.hash ∈ hl.hashes).filter
        (fun t => ¬ t.hash ∈ hl.hashes) = c.items.filter fun t => ¬ t.hash ∈ hl.hashes
    rw [List.filter_filter]
    exact List.filter_congr fun t _ => by by_cases h2 : t.hash ∈ hl.hashes <;> simp [h2]
  · intro h hne
    simp [removeTxs, hne]

/-- C9, witness at a concrete cache and hash list. -/
theorem c9_remove_txs_witness :
    removeTxs (removeTxs c9Cache [hash5, hash4]) [hash5, hash4] =
        removeTxs c9Cache [hash5, hash4] ∧
      (RemoveTxs c9Cache ⟨0, [hash5, hash4]⟩).2 = none ∧
      c9Cache.existHash hash5 = false ∧ removeTxs c9Cache [hash5] = c9Cache := by
  have h := c9_remove_txs c9Cache ⟨0, [hash5, hash4]⟩
  exact ⟨h.1, h.2.1, by decide, h.2.2 hash5 (by decide)⟩

/-- C10, counterexample: for a request with `TxCount = 0` and
`TxSize = 0`, the caller's request object is left untouched (the code
rebinds its local pointer to a fresh object) — the claimed in-place
write of the default size into the caller's object does not happen. -/
theorem c10_counterexample :
    (GetProperFeeRate cexFee (some ⟨0, 0⟩)).2 = some (⟨0, 0⟩ : ReqProperFee) ∧
      (⟨0, 0⟩ : ReqProperFee).txSize = 0 ∧
      some (⟨0, 0⟩ : ReqProperFee) ≠ some (⟨0, 10240⟩ : ReqProperFee) :=
  ⟨by decide, by decide, by decide⟩

/-- C10 (amended): when `req.TxCount = 0`, `GetProperFeeRate` discards
the caller-supplied `TxSize` and computes with both defaults
(`TxCount = 20`, `TxSize = 10240`) on a fresh object, leaving the
caller's request untouched; the in-place write of the default size
into the caller's object happens exactly when `TxCount ≠ 0` and
`TxSize = 0`. -/
theorem c10_req_defaults (s : FeeState) (q : ReqProperFee) :
    (GetProperFeeRate s (some q)).1 =
        properFeeCore s
          ⟨(if q.txCount = 0 then 20 else q.txCount),
            (if q.txCount = 0 then 10240 else if q.txSize = 0 then 10240 else q.txSize)⟩ ∧
      (GetProperFeeRate s (some q)).2 =
        some (if q.txCount = 0 then q
          else if q.txSize = 0 then ⟨q.txCount, 10240⟩ else q) := by
  by_cases h1 : q.txCount = 0
  · simp [GetProperFeeRate, h1]
  · by_cases h2 : q.txSize = 0
    · simp [GetProperFeeRate, h1, h2]
    · simp [GetProperFeeRate, h1, h2]

/-- C4: the level-based fee rate equals 100× the base fee when
current-plus-anticipated bytes reach `types.MaxBlockSize/20` or
current-plus-anticipated count reaches half the height's max tx
number; 10× the base fee when they reach `types.MaxBlockSize/100` or a
tenth of the max tx number; the base fee otherwise — and the result is
clamped to `MaxTxFeeRate`. -/
theorem c4_level_fee_rate (s : FeeState) (base count size : Int) :
    getLevelFeeRate s base count size =
      min s.cfg.maxTxFeeRate
        ((if s.cacheBytes + size ≥ goDiv s.maxBlockSize 20 ∨
              s.memSize + count ≥ goDiv s.maxTxNumber 2 then 100
          else if s.cacheBytes + size ≥ goDiv s.maxBlockSize 100 ∨
              s.memSize + count ≥ goDiv s.maxTxNumber 10 then 10
          else 1) * base) :=
  getLevelFeeRate_eq s base count size

/-- C3, counterexample: for the request `{TxCount: 0, TxSize: 999}`,
`GetProperFeeRate` returns 100 (it discards the caller's `TxSize` and
computes with the default 10240, which reaches the ×100 tier), whereas
the claimed per-field defaulting — substitute a default only for the
unset field, keeping the caller's `TxSize = 999` — yields 1. -/
theorem c3_counterexample :
    (GetProperFeeRate cexFee (some ⟨0, 999⟩)).1 = 100 ∧
      feeRateClaim cexFee ⟨0, 999⟩ = 1 ∧
      (GetProperFeeRate cexFee (some ⟨0, 999⟩)).1 ≠ feeRateClaim cexFee ⟨0, 999⟩ :=
  ⟨by decide, by decide, by decide⟩

/-- C3 (amended): `GetProperFeeRate` returns the greater of the
cache-fill-based rate (rounded up to the nearest `MinTxFeeRate` unit
and clamped to `MaxTxFeeRate`) and, when `IsLevelFee` is enabled, the
level-based rate (clamped) — computed with both defaults
(`TxCount = 20`, `TxSize = 10240`) whenever `TxCount` is unset (even
if the caller supplied a `TxSize`), and with only the size defaulted
when `TxCount` is set and `TxSize` unset; consequently, for a
nonnegative configuration and cache-proper-fee, the returned rate is
within `[0, MaxTxFeeRate]`. -/
theorem c3_proper_fee_rate (s : FeeState) (req0 : Option ReqProperFee)
    (hM : 0 ≤ s.cfg.maxTxFeeRate) (hu : 0 ≤ s.cfg.minTxFeeRate)
    (hp : 0 ≤ s.qcacheProperFee.getD 0) :
    (GetProperFeeRate s req0).1 = feeRateClaim s (defaultedReq req0) ∧
      0 ≤ (GetProperFeeRate s req0).1 ∧
      (GetProperFeeRate s req0).1 ≤ s.cfg.maxTxFeeRate := by
  have key : ∀ r : ReqProperFee,
      0 ≤ properFeeCore s r ∧ properFeeCore s r ≤ s.cfg.maxTxFeeRate :=
    fun r => properFeeCore_bounds s r hM hu hp
  obtain (_ | q) := req0
  · refine ⟨?_, (key ⟨20, 10240⟩).1, (key ⟨20, 10240⟩).2⟩
    rw [show defaultedReq none = (⟨0, 0⟩ : ReqProperFee) from rfl, claim_eq_core s _ hM]
    norm_num
    rfl
  · by_cases h1 : q.txCount = 0
    · have h2 : (GetProperFeeRate s (some q)).1 = properFeeCore s ⟨20, 10240⟩ := by
        simp [GetProperFeeRate, h1]
      refine ⟨?_, h2 ▸ (key ⟨20, 10240⟩).1, h2 ▸ (key ⟨20, 10240⟩).2⟩
      rw [h2, show defaultedReq (some q) = (⟨0, 0⟩ : ReqProperFee) by simp [defaultedReq, h1],
        claim_eq_core s _ hM]
      norm_num
    · have hd : defaultedReq (some q) = q := by simp [defaultedReq, h1]
      by_cases h2 : q.txSize = 0
      · have h3 : (GetProperFeeRate s (some q)).1 = properFeeCore s ⟨q.txCount, 10240⟩ := by
          simp [GetProperFeeRate, h1, h2]
        refine ⟨?_, h3 ▸ (key ⟨q.txCount, 10240⟩).1, h3 ▸ (key ⟨q.txCount, 10240⟩).2⟩
        rw [h3, hd, claim_eq_core s _ hM]
        simp [h1, h2]
      · have h3 : (GetProperFeeRate s (some q)).1 = properFeeCore s q := by
          simp [GetProperFeeRate, h1, h2]
        refine ⟨?_, h3 ▸ (key q).1, h3 ▸ (key q).2⟩
        rw [h3, hd, claim_eq_core s _ hM]
        simp [h1, h2]

/-- C3, witness at a concrete state and request. -/
theorem c3_proper_fee_rate_witness :
    (GetProperFeeRate cexFee (some ⟨3, 0⟩)).1 = feeRateClaim cexFee (defaultedReq (some ⟨3, 0⟩)) ∧
      0 ≤ (GetProperFeeRate cexFee (some ⟨3, 0⟩)).1 ∧
      (GetProperFeeRate cexFee (some ⟨3, 0⟩)).1 ≤ cexFee.cfg.maxTxFeeRate :=
  c3_proper_fee_rate cexFee (some ⟨3, 0⟩) (by decide) (by decide) (by decide)

theorem collectTxs_unbounded (env : ChainEnv) (h bt : Int) (dup : List String)
    (count : Int) (hc : count ≤ 0) :
    ∀ (l : List Tx) (n : Nat),
      collectTxs env h bt dup false count l n =
        l.filter fun t => !(dup.contains t.hash) && !(env.isExpired t h bt) := by
  intro l
  induction l with
  | nil => intro n; rfl
  | cons t ts ih =>
    intro n
    by_cases hd : t.hash ∈ dup
    · simp [collectTxs, hd, ih n]
    · by_cases he : env.isExpired t h bt = true
      · simp [collectTxs, hd, he, ih n]
      · have hcnt : ¬ (count > 0 ∧ ((n : Int) + 1 = count)) := fun hh => by omega
        simp [collectTxs, hd, he, hcnt, ih (n + 1)]

theorem collectTxs_bounded (env : ChainEnv) (h bt : Int) (dup : List String)
    (count : Int) :
    ∀ (l : List Tx) (n : Nat), (n : Int) < count →
      collectTxs env h bt dup false count l n =
        (l.filter fun t =>
          !(dup.contains t.hash) && !(env.isExpired t h bt)).take (count - n).toNat := by
  intro l
  induction l with
  | nil => intro n hn; simp [collectTxs]
  | cons t ts ih =>
    intro n hn
    by_cases hd : t.hash ∈ dup
    · simp [collectTxs, hd, ih n hn]
    · by_cases he : env.isExpired t h bt = true
      · simp [collectTxs, hd, he, ih n hn]
      · by_cases hc1 : (n : Int) + 1 = count
        · have hcond : count > 0 ∧ ((n : Int) + 1 = count) := ⟨by omega, hc1⟩
          have h1 : (count - n).toNat = 1 := by omega
          simp [collectTxs, hd, he, hcond, h1]
        · have hcond : ¬ (count > 0 ∧ ((n : Int) + 1 = count)) := fun hh => hc1 hh.2
          have h2 : (count - (n : Int)).toNat = (count - ((n : Int) + 1)).toNat + 1 := by
            omega
          simp [collectTxs, hd, he, hcond, h2, List.take_succ_cons,
            ih (n + 1) (by push_cast; omega), Nat.cast_add, Nat.cast_one]

/-- C2, counterexample: with the `ForkCheckEthTxSort` gate active, one
resident unexpired eth-signed transaction whose nonce (6) is ahead of
the oracle's expected nonce (5), and a request with `count = 1` and an
empty dedup set, `getTxList` returns no transaction at all although
`min(count, eligible) = 1`: the nonce sequencer withholds it after the
walk. -/
theorem c2_counterexample :
    (getTxList cexEnv c2St ⟨1, []⟩).length = 0 ∧
      (eligibleList cexEnv c2St []).length = 1 ∧
      (getTxList cexEnv c2St ⟨1, []⟩).length ≠
        min (Int.toNat 1) (eligibleList cexEnv c2St []).length :=
  ⟨by decide, by decide, by decide⟩

/-- C2 (amended): when the `ForkCheckEthTxSort` gate is inactive,
`getTxList` returns exactly `min(count, eligible)` transactions
(`count = 0` meaning all eligible ones), where eligible are the
resident items neither in the dedup set nor expired — the walk
continues past filtered entries; when the gate is active, the walk
still collects that many but the nonce sequencer may withhold some
before return.  Two calls with the same filter and no intervening
mutation return the same list (the embedding is a pure function of
the state, so this is definitional). -/
theorem c2_bounded_listing (env : ChainEnv) (s : MemState) (fl : TxHashList)
    (hfork : s.forkEthSort = false) (hc : 0 ≤ fl.count) :
    (getTxList env s fl).length =
        (if fl.count = 0 then (eligibleList env s fl.hashes).length
         else min fl.count.toNat (eligibleList env s fl.hashes).length) ∧
      getTxList env s fl = getTxList env s fl := by
  refine ⟨?_, rfl⟩
  unfold getTxList filterTxList
  simp only [hfork, Bool.false_eq_true, if_false]
  by_cases h0 : fl.count = 0
  · rw [collectTxs_unbounded env _ _ _ _ (le_of_eq h0) s.items 0]
    simp [h0, eligibleList]
  · rw [collectTxs_bounded env _ _ _ _ s.items 0 (by omega)]
    simp [h0, eligibleList, List.length_take]

/-- C2, witness at a concrete state and request. -/
theorem c2_bounded_listing_witness :
    (getTxList cexEnv c2wSt ⟨2, []⟩).length =
        (if (2 : Int) = 0 then (eligibleList cexEnv c2wSt []).length
         else min (2 : Int).toNat (eligibleList cexEnv c2wSt []).length) ∧
      getTxList cexEnv c2wSt ⟨2, []⟩ = getTxList cexEnv c2wSt ⟨2, []⟩ :=
  c2_bounded_listing cexEnv c2wSt ⟨2, []⟩ rfl (by decide)

theorem delBlockLoop_false_eq (e : DelBlockEnv) (l : List Tx) :
    delBlockLoop e false l =
      (scanCandidates e.groupTx l).filter
        fun c => e.check c && e.expireValid c && e.pushOk c := by
  have H : ∀ (m : Nat) (l : List Tx), l.length ≤ m →
      delBlockLoop e false l =
        (scanCandidates e.groupTx l).filter
          fun c => e.check c && e.expireValid c && e.pushOk c := by
    intro m
    induction m with
    | zero =>
      intro l hl
      have hnil : l = [] := List.eq_nil_of_length_eq_zero (Nat.le_zero.mp hl)
      subst hnil
      simp [delBlockLoop.eq_def, scanCandidates.eq_def]
    | succ m ih =>
      intro l hl
      match l with
      | [] => simp [delBlockLoop.eq_def, scanCandidates.eq_def]
      | t :: rest =>
        simp only [List.length_cons] at hl
        by_cases hg : 1 < t.groupCount ∧ t.groupCount ≤ (((t :: rest).length : Nat) : Int)
        · have hdrop : ((t :: rest).drop t.groupCount.toNat).length ≤ m := by
            simp only [List.length_drop, List.length_cons]
            omega
          rw [delBlockLoop.eq_def, scanCandidates.eq_def]
          simp only [Bool.false_eq_true, false_and, if_false, hg, dif_pos,
            List.filter_cons]
          by_cases hv : e.check (e.groupTx ((t :: rest).take t.groupCount.toNat)) ∧
              e.expireValid (e.groupTx ((t :: rest).take t.groupCount.toNat))
          · by_cases hp : e.pushOk (e.groupTx ((t :: rest).take t.groupCount.toNat)) <;>
              simp [hv, hv.1, hv.2, hp, ih _ hdrop]
          · have : ¬ (e.check (e.groupTx ((t :: rest).take t.groupCount.toNat)) = true ∧
                e.expireValid (e.groupTx ((t :: rest).take t.groupCount.toNat)) = true) := hv
            rcases Decidable.not_and_iff_or_not.mp hv with hv1 | hv1 <;>
              simp [hv, hv1, Bool.eq_false_iff, ih _ hdrop]
        · rw [delBlockLoop.eq_def, scanCandidates.eq_def]
          simp only [Bool.false_eq_true, false_and, if_false, hg, dif_neg,
            List.filter_cons]
          by_cases hv : e.check t ∧ e.expireValid t
          · by_cases hp : e.pushOk t <;>
              simp [hv, hv.1, hv.2, hp, ih rest (by omega)]
          · rcases Decidable.not_and_iff_or_not.mp hv with hv1 | hv1 <;>
              simp [hv, hv1, Bool.eq_false_iff, ih rest (by omega)]
  exact H l.length l le_rfl

/-- C6: rolling back a block re-admits exactly the candidates obtained
by skipping a miner-tagged transaction at position 0, collapsing each
declared group of size `g > 1` with `i + g ≤ len(txs)` into one
reassembled transaction (advancing the scan past the whole group), and
keeping those that pass revalidation (structural/fee check and expiry)
and whose `Push` succeeds — a failed candidate is silently dropped
while the scan of the remaining transactions continues.  Validation,
expiry, reassembly and push success are abstract parameters
(`DelBlockEnv`), since their implementations live outside
`base.go`. -/
theorem c6_del_block (e : DelBlockEnv) (blockTxs : List Tx) :
    delBlock e blockTxs =
      (scanCandidates e.groupTx (stripMinerHead blockTxs)).filter
        fun c => e.check c && e.expireValid c && e.pushOk c := by
  cases blockTxs with
  | nil => simp [delBlock, stripMinerHead, scanCandidates]
  | cons t rest =>
    have hlen : ¬ ((t :: rest).length ≤ 0) := by simp
    by_cases hm : t.isMinerAction = true
    · have hskip : delBlockLoop e true (t :: rest) = delBlockLoop e false rest := by
        rw [delBlockLoop.eq_def]
        simp [hm]
      rw [delBlock, if_neg hlen, hskip, delBlockLoop_false_eq]
      simp [stripMinerHead, hm]
    · have hsame : delBlockLoop e true (t :: rest) = delBlockLoop e false (t :: rest) := by
        conv_lhs => rw [delBlockLoop.eq_def]
        conv_rhs => rw [delBlockLoop.eq_def]
        simp [hm]
      rw [delBlock, if_neg hlen, hsame, delBlockLoop_false_eq]
      simp [stripMinerHead, hm]

theorem consecRun_eq_consecFrom (l : List Tx) : ∀ p : Int, consecRun p l = consecFrom (p + 1) l := by
  induction l with
  | nil => intro p; rfl
  | cons t ts ih =>
    intro p
    simp only [consecRun, consecFrom]
    by_cases h : t.nonce = p + 1
    · simp [h, ih (p + 1)]
    · simp [h]

theorem emitForSender_eq (env : ChainEnv) (f : String) (g : List Tx) :
    emitForSender env f g = consecFrom (getCurrentNonce env f) (sortByNonce g) := by
  unfold emitForSender
  cases hs : sortByNonce g with
  | nil => rfl
  | cons h t =>
    simp only [consecFrom]
    by_cases he : getCurrentNonce env f = h.nonce
    · simp [he, consecRun_eq_consecFrom]
    · have he2 : ¬ h.nonce = getCurrentNonce env f := fun hh => he hh.symm
      simp [he, he2]

theorem mem_insertNonce (u t : Tx) : ∀ l : List Tx, u ∈ insertNonce t l ↔ u = t ∨ u ∈ l := by
  intro l
  induction l with
  | nil => simp [insertNonce]
  | cons v vs ih =>
    simp only [insertNonce]
    by_cases h : v.nonce < t.nonce
    · rw [if_pos h]
      simp only [List.mem_cons, ih]
      try tauto
    · rw [if_neg h]
      simp only [List.mem_cons]
      try tauto

theorem mem_sortByNonce (u : Tx) : ∀ l : List Tx, u ∈ sortByNonce l ↔ u ∈ l := by
  intro l
  induction l with
  | nil => simp [sortByNonce]
  | cons t ts ih => simp [sortByNonce, mem_insertNonce, ih]

theorem mem_of_mem_consecFrom (u : Tx) : ∀ (l : List Tx) (e : Int), u ∈ consecFrom e l → u ∈ l := by
  intro l
  induction l with
  | nil => intro e h; simp [consecFrom] at h
  | cons t ts ih =>
    intro e h
    simp only [consecFrom] at h
    by_cases hc : t.nonce = e
    · rw [if_pos hc] at h
      rcases List.mem_cons.mp h with h1 | h1
      · exact h1 ▸ List.mem_cons_self t ts
      · exact List.mem_cons_of_mem t (ih (e + 1) h1)
    · rw [if_neg hc] at h
      simp at h

theorem mem_firstKeys (f : String) : ∀ l : List Tx, f ∈ firstKeys l ↔ ∃ u ∈ l, u.fromAddr = f := by
  intro l
  induction l with
  | nil => simp [firstKeys]
  | cons t ts ih =>
    simp only [firstKeys, List.mem_cons, List.mem_filter]
    constructor
    · rintro (h | ⟨h1, _⟩)
      · exact ⟨t, Or.inl rfl, h.symm⟩
      · obtain ⟨u, hu, hf⟩ := ih.mp h1
        exact ⟨u, Or.inr hu, hf⟩
    · rintro ⟨u, h1 | h1, hf⟩
      · exact Or.inl (h1 ▸ hf).symm
      · by_cases he : f = t.fromAddr
        · exact Or.inl he
        · exact Or.inr ⟨ih.mpr ⟨u, h1, hf⟩, by simpa using he⟩

theorem firstKeys_nodup : ∀ l : List Tx, (firstKeys l).Nodup := by
  intro l
  induction l with
  | nil => simp [firstKeys]
  | cons t ts ih =>
    simp only [firstKeys, List.nodup_cons]
    refine ⟨?_, List.Nodup.filter _ ih⟩
    intro hmem
    have := (List.mem_filter.mp hmem).2
    simp at this

theorem emit_elem (env : ChainEnv) (ethTxs : List Tx)
    (hall : ∀ u ∈ ethTxs, matchesEthSort env u = true) (f : String) :
    ∀ u ∈ emitForSender env f (ethTxs.filter fun t => t.fromAddr = f),
      matchesEthSort env u = true ∧ u.fromAddr = f := by
  intro u hu
  rw [emitForSender_eq] at hu
  have h1 := mem_of_mem_consecFrom u _ _ hu
  have h2 := (mem_sortByNonce u _).mp h1
  have h3 := List.mem_filter.mp h2
  exact ⟨hall u h3.1, by simpa using h3.2⟩

theorem senderBlocks_filter_nonmatch (env : ChainEnv) (ethTxs : List Tx)
    (hall : ∀ u ∈ ethTxs, matchesEthSort env u = true) :
    ∀ fs : List String,
      (senderBlocks env ethTxs fs).filter (fun t => !(matchesEthSort env t)) = [] := by
  intro fs
  induction fs with
  | nil => simp [senderBlocks]
  | cons f' fs' ih =>
    simp only [senderBlocks, List.filter_append, ih, List.append_nil]
    rw [List.filter_eq_nil_iff]
    intro u hu
    have := (emit_elem env ethTxs hall f' u hu).1
    simp [this]

theorem senderBlocks_filter_not_mem (env : ChainEnv) (ethTxs : List Tx)
    (hall : ∀ u ∈ ethTxs, matchesEthSort env u = true) (f : String) :
    ∀ fs : List String, f ∉ fs →
      (senderBlocks env ethTxs fs).filter
        (fun t => matchesEthSort env t && t.fromAddr = f) = [] := by
  intro fs
  induction fs with
  | nil => intro _; simp [senderBlocks]
  | cons f' fs' ih =>
    intro hnm
    have hne : f' ≠ f := fun hh => hnm (by simp [hh])
    simp only [senderBlocks, List.filter_append, ih fun h => hnm (List.mem_cons_of_mem f' h),
      List.append_nil]
    rw [List.filter_eq_nil_iff]
    intro u hu
    have h2 := (emit_elem env ethTxs hall f' u hu).2
    simp [h2, hne]

theorem senderBlocks_filter_mem (env : ChainEnv) (ethTxs : List Tx)
    (hall : ∀ u ∈ ethTxs, matchesEthSort env u = true) (f : String) :
    ∀ fs : List String, fs.Nodup → f ∈ fs →
      (senderBlocks env ethTxs fs).filter
          (fun t => matchesEthSort env t && t.fromAddr = f) =
        emitForSender env f (ethTxs.filter fun t => t.fromAddr = f) := by
  intro fs
  induction fs with
  | nil => intro _ h; simp at h
  | cons f' fs' ih =>
    intro hnd hf
    have hnd' := List.nodup_cons.mp hnd
    rcases List.mem_cons.mp hf with h1 | h1
    · subst h1
      simp only [senderBlocks, List.filter_append]
      rw [senderBlocks_filter_not_mem env ethTxs hall f fs' hnd'.1, List.append_nil]
      rw [List.filter_eq_self]
      intro u hu
      have := emit_elem env ethTxs hall f u hu
      simp [this.1, this.2]
    · have hne : f' ≠ f := fun hh => hnd'.1 (hh ▸ h1)
      simp only [senderBlocks, List.filter_append, ih hnd'.2 h1]
      have hnil : (emitForSender env f' (ethTxs.filter fun t => t.fromAddr = f')).filter
          (fun t => matchesEthSort env t && t.fromAddr = f) = [] := by
        rw [List.filter_eq_nil_iff]
        intro u hu
        have h2 := (emit_elem env ethTxs hall f' u hu).2
        simp [h2, hne]
      rw [hnil, List.nil_append]

/-- C1, counterexample: sender `A` has pooled nonces `[4, 5, 6]` and
expected (oracle) nonce 5.  The claim demands the maximal
strictly-consecutive run starting at the expected value — the
transactions with nonces `[5, 6]` — with nonce 4 withheld.  The code
instead compares the expected nonce with the *smallest* pooled nonce
(4), finds a mismatch, and emits nothing at all. -/
theorem c1_counterexample :
    sortEthSignTyTx cexEnv [cexT4, cexT5, cexT6] = [] ∧
      sortEthSignTyTx cexEnv [cexT4, cexT5, cexT6] ≠ [cexT5, cexT6] :=
  ⟨by decide, by decide⟩

/-- C1 (amended): when the chain-height-gated feature is active, the
sequencer groups the eth-signed, non-parallel-chain transactions by
sender and sorts each group ascending by nonce; for each sender it
emits the maximal strictly-consecutive prefix of the sorted group
whose nonces start exactly at the oracle's expected value (default 0
on oracle failure) — so if the sender's smallest pooled nonce differs
from the expected value (in particular when nonces below it are
pooled), none of that sender's transactions is emitted; the remaining
transactions are withheld from the result (the pool is not touched:
the sequencer is a pure post-filter of the query result).  All
non-matching transactions pass through with their relative order
preserved. -/
theorem c1_nonce_sequencer (env : ChainEnv) (txs : List Tx) :
    ((sortEthSignTyTx env txs).filter fun t => !(matchesEthSort env t)) =
        (txs.filter fun t => !(matchesEthSort env t)) ∧
      ∀ f : String,
        ((sortEthSignTyTx env txs).filter fun t => matchesEthSort env t && t.fromAddr = f) =
          consecFrom (getCurrentNonce env f)
            (sortByNonce ((txs.filter fun t => matchesEthSort env t).filter
              fun t => t.fromAddr = f)) := by
  unfold sortEthSignTyTx
  by_cases hb : (txs.filter fun t => !(matchesEthSort env t)).length = txs.length
  · have hsub : (txs.filter fun t => !(matchesEthSort env t)) = txs :=
      (List.filter_sublist txs).eq_of_length hb
    have hall : ∀ t ∈ txs, (!(matchesEthSort env t)) = true := List.filter_eq_self.mp hsub
    constructor
    · rw [if_pos hb]
    · intro f
      rw [if_pos hb]
      have h1 : (txs.filter fun t => matchesEthSort env t) = [] := by
        rw [List.filter_eq_nil_iff]
        intro u hu
        have := hall u hu
        simp at this
        simp [this]
      have h2 : (txs.filter fun t => matchesEthSort env t && t.fromAddr = f) = [] := by
        rw [List.filter_eq_nil_iff]
        intro u hu
        have := hall u hu
        simp at this
        simp [this]
      rw [h1, h2]
      simp [sortByNonce, consecFrom]
  · rw [if_neg hb]
    have hallE : ∀ u ∈ (txs.filter fun t => matchesEthSort env t),
        matchesEthSort env u = true := fun u hu => (List.mem_filter.mp hu).2
    constructor
    · rw [List.filter_append, senderBlocks_filter_nonmatch env _ hallE, List.append_nil,
        List.filter_filter]
      simp [Bool.and_self]
    · intro f
      rw [List.filter_append]
      have hmerge : (txs.filter fun t => !(matchesEthSort env t)).filter
          (fun t => matchesEthSort env t && t.fromAddr = f) = [] := by
        rw [List.filter_eq_nil_iff]
        intro u hu
        have h2 := (List.mem_filter.mp hu).2
        simp at h2
        simp [h2]
      rw [hmerge, List.nil_append]
      by_cases hf : f ∈ firstKeys (txs.filter fun t => matchesEthSort env t)
      · rw [senderBlocks_filter_mem env _ hallE f _ (firstKeys_nodup _) hf, emitForSender_eq]
      · rw [senderBlocks_filter_not_mem env _ hallE f _ hf]
        have hgrp : (txs.filter fun t => matchesEthSort env t).filter
            (fun t => t.fromAddr = f) = [] := by
          rw [List.filter_eq_nil_iff]
          intro u hu hc
          exact hf ((mem_firstKeys f _).mpr ⟨u, hu, by simpa using hc⟩)
        rw [hgrp]
        simp [sortByNonce, consecFrom]

end Chain33Mempool
